import Mathlib

/-!
Shallow embedding of the recipient-store and alert-dispatch logic of
`src/app.py` (ErrorWebApp).  Python strings are modelled as `List Char`
(one element per code point) and the backing file (`CLIENT_FILE`) as a
`FileState`: absent, unreadable (an I/O error on open/read), or present
with its decoded text content.
-/

/-- Whitespace characters removed by Python `str.strip()` (ASCII range:
space, tab, newline, carriage return, vertical tab, form feed). -/
def isPyWS (c : Char) : Bool :=
  decide (c = ' ') || decide (c = '\t') || decide (c = '\n') ||
    decide (c = '\r') || decide (c = '\x0b') || decide (c = '\x0c')

/-- Python `str.strip()`: remove leading and trailing whitespace. -/
def pythonStrip (s : List Char) : List Char :=
  ((s.dropWhile isPyWS).reverse.dropWhile isPyWS).reverse

/-- The character class `[a-zA-Z]` of the regex on src/app.py:48. -/
def isAsciiAlpha (c : Char) : Bool :=
  (decide (65 ≤ c.toNat) && decide (c.toNat ≤ 90)) ||
    (decide (97 ≤ c.toNat) && decide (c.toNat ≤ 122))

/-- The character class `[0-9]`. -/
def isAsciiDigit (c : Char) : Bool :=
  decide (48 ≤ c.toNat) && decide (c.toNat ≤ 57)

/-- The local-part class `[a-zA-Z0-9._%+-]` of the regex on src/app.py:48. -/
def isLocalChar (c : Char) : Bool :=
  isAsciiAlpha c || isAsciiDigit c || decide (c = '.') || decide (c = '_') ||
    decide (c = '%') || decide (c = '+') || decide (c = '-')

/-- The domain class `[a-zA-Z0-9.-]` of the regex on src/app.py:48. -/
def isDomainChar (c : Char) : Bool :=
  isAsciiAlpha c || isAsciiDigit c || decide (c = '.') || decide (c = '-')

/-- Matcher for the regex fragment `\.[a-zA-Z]{2,}` against an entire
suffix: a dot followed by two or more letters. -/
def domainTail (x : List Char) : Bool :=
  match x with
  | c :: t => decide (c = '.') && decide (2 ≤ t.length) && t.all isAsciiAlpha
  | [] => false

/-- Matcher for the regex fragment `[a-zA-Z0-9.-]+\.[a-zA-Z]{2,}` against an
entire string: some split point `j ≥ 1` where the dot of the top-level label
sits. -/
def domainMatch (d : List Char) : Bool :=
  (List.range d.length).any fun j =>
    decide (1 ≤ j) && (d.take j).all isDomainChar && domainTail (d.drop j)

/-- Matcher for the regex body `[a-zA-Z0-9._%+-]+@[a-zA-Z0-9.-]+\.[a-zA-Z]{2,}`
against an entire string: since `@` belongs to no character class of the
pattern, the local part is exactly the segment before the first `@`. -/
def coreMatch (s : List Char) : Bool :=
  let l := s.takeWhile fun c => decide (c ≠ '@')
  match s.dropWhile fun c => decide (c ≠ '@') with
  | c :: d => decide (c = '@') && decide (l ≠ []) && l.all isLocalChar && domainMatch d
  | [] => false

/-- `validate_email` (src/app.py:46-49): `re.match(pattern, email) is not None`
with `pattern = r'^[a-zA-Z0-9._%+-]+@[a-zA-Z0-9.-]+\.[a-zA-Z]{2,}$'`.
`re.match` anchors at the start, and `$` matches at the end of the string or
just before a single newline that ends the string. -/
def validate_email (s : List Char) : Bool :=
  coreMatch s ||
    (match s.getLast? with
     | some c => decide (c = '\n') && coreMatch s.dropLast
     | none => false)

/-- Split file text on newline characters.  Together with the strip-and-drop-
blank steps of `get_recipients` this is equivalent to Python `readlines()`
followed by per-line `strip()`. -/
def splitNL : List Char → List (List Char)
  | [] => [[]]
  | c :: rest =>
    if c = '\n' then [] :: splitNL rest
    else
      match splitNL rest with
      | [] => [[c]]
      | h :: t => (c :: h) :: t

/-- Concatenate with newline separators: Python `"\n".join(lines)`
(src/app.py:72). -/
def joinNL : List (List Char) → List Char
  | [] => []
  | [a] => a
  | a :: b :: rest => a ++ '\n' :: joinNL (b :: rest)

/-- The backing file `CLIENT_FILE`: absent, present but unreadable (an I/O
error while opening or reading, swallowed on src/app.py:60-62), or present
with decoded text content. -/
inductive FileState
  | absent
  | unreadable
  | present (content : List Char)
deriving DecidableEq

/-- `get_recipients` (src/app.py:51-62): a missing file and a read error both
give `[]`; otherwise lines are stripped, blank lines dropped, and entries
failing `validate_email` filtered out. -/
def get_recipients : FileState → List (List Char)
  | .absent => []
  | .unreadable => []
  | .present c =>
      ((((splitNL c).map pythonStrip).filter fun s => !s.isEmpty).filter validate_email)

/-- Helper for `dedupFirst`, carrying the set of values already emitted. -/
def dedupFirstAux (seen : List (List Char)) : List (List Char) → List (List Char)
  | [] => []
  | a :: as =>
    if a ∈ seen then dedupFirstAux seen as
    else a :: dedupFirstAux (a :: seen) as

/-- `list(dict.fromkeys(recipients))` (src/app.py:68): remove exact (case
sensitive) duplicates, keeping the first occurrence of each string. -/
def dedupFirst (l : List (List Char)) : List (List Char) :=
  dedupFirstAux [] l

/-- Python `str.lower()`.  `Char.toLower` is the ASCII case mapping, which
agrees with Python on every character the email pattern admits. -/
def lowerStr (s : List Char) : List Char := s.map Char.toLower

/-- Lexicographic comparison of strings by code point, as Python compares
`str` values. -/
def lexLe : List Char → List Char → Bool
  | [], _ => true
  | _ :: _, [] => false
  | a :: as, b :: bs => decide (a < b) || (decide (a = b) && lexLe as bs)

/-- The sort relation of `unique_emails.sort(key=str.lower)` (src/app.py:69). -/
def leKey (a b : List Char) : Prop := lexLe (lowerStr a) (lowerStr b) = true

instance : DecidableRel leKey := fun a b => instDecidableEqBool (lexLe (lowerStr a) (lowerStr b)) true

/-- The list written by `save_recipients` (src/app.py:64-78): exact
deduplication first, then a stable sort keyed on the lowercased string
(`list.sort` is stable, as is `List.insertionSort`). -/
def save_list (recipients : List (List Char)) : List (List Char) :=
  (dedupFirst recipients).insertionSort leKey

/-- The file content written by `save_recipients`: `"\n".join(unique_emails)`
(src/app.py:72), one address per line with no trailing newline. -/
def save_content (recipients : List (List Char)) : List Char :=
  joinNL (save_list recipients)

/-- The outbound message built on src/app.py:86-90. -/
structure Email where
  subject : List Char
  sender : List Char
  toHeader : List Char
  body : List Char
deriving DecidableEq

/-- Python `", ".join(recipients)` (src/app.py:89). -/
def joinComma : List (List Char) → List Char
  | [] => []
  | [a] => a
  | a :: b :: rest => a ++ ',' :: ' ' :: joinComma (b :: rest)

/-- The subject line (src/app.py:87):
`f"System Alert: {message[:50]}{'...' if len(message) > 50 else ''}"`. -/
def subjectFor (message : List Char) : List Char :=
  ("System Alert: ".data) ++ message.take 50 ++
    (if 50 < message.length then ("...".data) else [])

/-- The body (src/app.py:90): `f"System Alert Notification:\n\n{message}"`. -/
def bodyFor (message : List Char) : List Char :=
  ("System Alert Notification:\n\n".data) ++ message

/-- Assemble the `EmailMessage` of src/app.py:86-90. -/
def mkEmail (sender message : List Char) (recipients : List (List Char)) : Email :=
  { subject := subjectFor message
    sender := sender
    toHeader := joinComma recipients
    body := bodyFor message }

/-- The pre-transport failure of `send_email_to_all`: the `ValueError` raised
on src/app.py:84. -/
inductive DispatchError
  | noRecipients
deriving DecidableEq

/-- Observable effects of one call to `send_email_to_all`: the error raised
before the transport (if any), the message constructed (if any), and whether
an SMTP session is opened. -/
structure DispatchResult where
  error : Option DispatchError
  email : Option Email
  sessionOpened : Bool
deriving DecidableEq

/-- `send_email_to_all` (src/app.py:80-102) up to the network boundary: with
no recipients it raises before building the message or touching the network;
otherwise it builds the message and opens one SMTP session (src/app.py:93).
The transport outcome itself is external nondeterminism and not modelled. -/
def send_email_to_all (sender : List Char) (fs : FileState) (message : List Char) :
    DispatchResult :=
  let recipients := get_recipients fs
  if recipients.isEmpty then
    { error := some .noRecipients, email := none, sessionOpened := false }
  else
    { error := none, email := some (mkEmail sender message recipients), sessionOpened := true }

/-- Outcome of the `/send-alert` handler (src/app.py:112-137): each early
`flash`-and-redirect, or the dispatch call. -/
inductive TriggerOutcome
  | emptyMsg
  | tooLong
  | noRecipients
  | dispatched (r : DispatchResult)
deriving DecidableEq

/-- `trigger_email` (src/app.py:112-137): strip the form value, reject an
empty or over-long message, reject an empty recipient list, else dispatch. -/
def trigger_email (sender raw : List Char) (fs : FileState) : TriggerOutcome :=
  let message := pythonStrip raw
  if message.isEmpty then .emptyMsg
  else if 5000 < message.length then .tooLong
  else if (get_recipients fs).isEmpty then .noRecipients
  else .dispatched (send_email_to_all sender fs message)

/-- Whether a `/send-alert` request opened an SMTP session. -/
def opensSession : TriggerOutcome → Bool
  | .dispatched r => r.sessionOpened
  | _ => false

/-- The flash messages of `update_clients` (src/app.py:151-175), by kind. -/
inductive Flash
  | invalidFormat (e : List Char)
  | alreadyPresent (e : List Char)
  | added (e : List Char)
  | removed (e : List Char)
  | notFound (e : List Char)
deriving DecidableEq

/-- Result of one `update_clients` request: flash messages, the resulting
file state, the `changed` flag, and whether `save_recipients` was called. -/
structure UpdateResult where
  flashes : List Flash
  newFile : FileState
  changed : Bool
  saved : Bool
deriving DecidableEq

/-- The add block of `update_clients` (src/app.py:147-157): the flash
raised, the resulting in-memory list, and whether it changed. -/
def addStepFun (new_email : List Char) (current : List (List Char)) :
    List Flash × List (List Char) × Bool :=
  if !new_email.isEmpty then
    if !validate_email new_email then
      ([Flash.invalidFormat new_email], current, false)
    else if lowerStr new_email ∈ current.map lowerStr then
      ([Flash.alreadyPresent new_email], current, false)
    else
      ([Flash.added new_email], current ++ [new_email], true)
  else ([], current, false)

/-- The remove block of `update_clients` (src/app.py:159-168): filter by
case-insensitive match, and report "changed" iff the count decreased. -/
def removeStepFun (remove_email : List Char) (current : List (List Char)) :
    List Flash × List (List Char) × Bool :=
  if !remove_email.isEmpty then
    if (current.filter fun e => decide (lowerStr e ≠ remove_email)).length
        < current.length then
      ([Flash.removed remove_email],
        current.filter fun e => decide (lowerStr e ≠ remove_email), true)
    else
      ([Flash.notFound remove_email],
        current.filter fun e => decide (lowerStr e ≠ remove_email), false)
  else ([], current, false)

/-- `update_clients` (src/app.py:139-177).  `newRaw` and `removeRaw` are the
raw form fields `new_email` and `remove_email`; both are stripped and
lowercased (src/app.py:142-143), then the add block and the remove block run
in order, and the list is saved iff either block reported a change.  A
successful file write is assumed when `save_recipients` is called; `saved`
records that the call happened. -/
def update_clients (newRaw removeRaw : List Char) (fs : FileState) : UpdateResult :=
  let addStep := addStepFun (lowerStr (pythonStrip newRaw)) (get_recipients fs)
  let removeStep := removeStepFun (lowerStr (pythonStrip removeRaw)) addStep.2.1
  if addStep.2.2 || removeStep.2.2 then
    { flashes := addStep.1 ++ removeStep.1
      newFile := .present (save_content removeStep.2.1)
      changed := true
      saved := true }
  else
    { flashes := addStep.1 ++ removeStep.1
      newFile := fs
      changed := false
      saved := false }

/-- The spec's reading of the email pattern as a full match of the whole
string: local part, `@`, domain, dot, top-level label of two or more
letters. -/
def MatchesPattern (s : List Char) : Prop :=
  ∃ l d t, s = l ++ '@' :: (d ++ '.' :: t) ∧
    l ≠ [] ∧ l.all isLocalChar = true ∧
    d ≠ [] ∧ d.all isDomainChar = true ∧
    2 ≤ t.length ∧ t.all isAsciiAlpha = true

/-- The load pipeline as the spec words it, per line: trim; drop if blank;
drop if invalid; keep otherwise. -/
def loadSpecLine (line : List Char) : Option (List Char) :=
  let t := pythonStrip line
  if t.isEmpty then none
  else if validate_email t then some t else none

/-- Per-file reading of the spec's `load()` description. -/
def loadSpec : FileState → List (List Char)
  | .absent => []
  | .unreadable => []
  | .present c => (splitNL c).filterMap loadSpecLine

/-! Character-level facts. -/

theorem char_eq_iff_toNat {a b : Char} : a = b ↔ a.toNat = b.toNat := by
  constructor
  · intro h; rw [h]
  · intro h; exact Char.ext (UInt32.toNat.inj h)

theorem toLower_toNat_of_upper {c : Char} (h1 : 65 ≤ c.toNat) (h2 : c.toNat ≤ 90) :
    (Char.toLower c).toNat = c.toNat + 32 := by
  rw [Char.toLower]
  rw [if_pos ⟨h1, h2⟩]
  have hv : (c.toNat + 32).isValidChar := Or.inl (by omega)
  rw [Char.ofNat, dif_pos hv]
  simp [Char.ofNatAux, Char.toNat, UInt32.ofNat', UInt32.toNat]

theorem toLower_eq_self_of_not_upper {c : Char} (h : ¬(65 ≤ c.toNat ∧ c.toNat ≤ 90)) :
    Char.toLower c = c := by
  rw [Char.toLower]
  exact if_neg h

theorem toNat_le_of_isPyWS {c : Char} (h : isPyWS c = true) : c.toNat ≤ 32 := by
  simp only [isPyWS, Bool.or_eq_true, decide_eq_true_eq] at h
  rcases h with ((((h | h) | h) | h) | h) | h <;> subst h <;> decide

theorem isPyWS_toLower (c : Char) : isPyWS (Char.toLower c) = isPyWS c := by
  by_cases h : 65 ≤ c.toNat ∧ c.toNat ≤ 90
  · have hl := toLower_toNat_of_upper h.1 h.2
    have h1 : isPyWS (Char.toLower c) = false := by
      rw [Bool.eq_false_iff]
      intro hw
      have := toNat_le_of_isPyWS hw
      omega
    have h2 : isPyWS c = false := by
      rw [Bool.eq_false_iff]
      intro hw
      have := toNat_le_of_isPyWS hw
      omega
    rw [h1, h2]
  · rw [toLower_eq_self_of_not_upper h]

theorem toLower_toLower (c : Char) : Char.toLower (Char.toLower c) = Char.toLower c := by
  by_cases h : 65 ≤ c.toNat ∧ c.toNat ≤ 90
  · have hl := toLower_toNat_of_upper h.1 h.2
    apply toLower_eq_self_of_not_upper
    omega
  · rw [toLower_eq_self_of_not_upper h, toLower_eq_self_of_not_upper h]

theorem le_toNat_of_localChar {c : Char} (h : isLocalChar c = true) : 37 ≤ c.toNat := by
  simp only [isLocalChar, isAsciiAlpha, isAsciiDigit, Bool.or_eq_true, Bool.and_eq_true,
    decide_eq_true_eq] at h
  rcases h with ((((((h | h) | h) | h) | h) | h) | h)
  all_goals first
    | omega
    | (subst h; decide)

theorem le_toNat_of_domainChar {c : Char} (h : isDomainChar c = true) : 45 ≤ c.toNat := by
  simp only [isDomainChar, isAsciiAlpha, isAsciiDigit, Bool.or_eq_true, Bool.and_eq_true,
    decide_eq_true_eq] at h
  rcases h with (((h | h) | h) | h)
  all_goals first
    | omega
    | (subst h; decide)

theorem le_toNat_of_asciiAlpha {c : Char} (h : isAsciiAlpha c = true) : 65 ≤ c.toNat := by
  simp only [isAsciiAlpha, Bool.or_eq_true, Bool.and_eq_true, decide_eq_true_eq] at h
  omega

theorem not_ws_of_localChar {c : Char} (h : isLocalChar c = true) : isPyWS c = false := by
  rw [Bool.eq_false_iff]
  intro hw
  have := toNat_le_of_isPyWS hw
  have := le_toNat_of_localChar h
  omega

theorem not_ws_of_domainChar {c : Char} (h : isDomainChar c = true) : isPyWS c = false := by
  rw [Bool.eq_false_iff]
  intro hw
  have := toNat_le_of_isPyWS hw
  have := le_toNat_of_domainChar h
  omega

theorem not_ws_of_asciiAlpha {c : Char} (h : isAsciiAlpha c = true) : isPyWS c = false := by
  rw [Bool.eq_false_iff]
  intro hw
  have := toNat_le_of_isPyWS hw
  have := le_toNat_of_asciiAlpha h
  omega

/-! Facts about stripping and line splitting. -/

theorem takeWhile_append_all {p : Char → Bool} {l : List Char} (r : List Char)
    (h : ∀ c ∈ l, p c = true) : (l ++ r).takeWhile p = l ++ r.takeWhile p := by
  induction l with
  | nil => simp
  | cons x xs ih =>
    rw [List.cons_append, List.takeWhile_cons, if_pos (h x (List.mem_cons_self x xs)),
      ih fun c hc => h c (List.mem_cons_of_mem x hc), List.cons_append]

theorem dropWhile_append_all {p : Char → Bool} {l : List Char} (r : List Char)
    (h : ∀ c ∈ l, p c = true) : (l ++ r).dropWhile p = r.dropWhile p := by
  induction l with
  | nil => simp
  | cons x xs ih =>
    rw [List.cons_append, List.dropWhile_cons, if_pos (h x (List.mem_cons_self x xs)),
      ih fun c hc => h c (List.mem_cons_of_mem x hc)]

theorem dropWhile_head_false {p : Char → Bool} {s d : List Char} {c : Char}
    (h : s.dropWhile p = c :: d) : p c = false := by
  induction s with
  | nil => simp at h
  | cons x xs ih =>
    rw [List.dropWhile_cons] at h
    by_cases hx : p x = true
    · rw [if_pos hx] at h
      exact ih h
    · rw [if_neg hx] at h
      cases h
      exact Bool.eq_false_iff.mpr hx

theorem dropWhile_eq_self_of_all {p : Char → Bool} {s : List Char}
    (h : ∀ c ∈ s, p c = false) : s.dropWhile p = s := by
  cases s with
  | nil => rfl
  | cons x xs =>
    rw [List.dropWhile_cons, if_neg]
    rw [h x (List.mem_cons_self x xs)]
    simp

theorem pythonStrip_eq_self {s : List Char} (h : ∀ c ∈ s, isPyWS c = false) :
    pythonStrip s = s := by
  unfold pythonStrip
  rw [dropWhile_eq_self_of_all h,
    dropWhile_eq_self_of_all fun c hc => h c (List.mem_reverse.mp hc),
    List.reverse_reverse]

theorem mem_pythonStrip {s : List Char} {c : Char} (h : c ∈ pythonStrip s) : c ∈ s := by
  unfold pythonStrip at h
  rw [List.mem_reverse] at h
  have h2 := (List.dropWhile_sublist _).subset h
  rw [List.mem_reverse] at h2
  exact (List.dropWhile_sublist _).subset h2

theorem pythonStrip_getLast_not_ws (s : List Char) :
    pythonStrip s = [] ∨
      ∃ c t, pythonStrip s = t ++ [c] ∧ isPyWS c = false := by
  unfold pythonStrip
  cases hd : (s.dropWhile isPyWS).reverse.dropWhile isPyWS with
  | nil =>
    left
    rfl
  | cons c t =>
    right
    refine ⟨c, t.reverse, ?_, dropWhile_head_false hd⟩
    exact List.reverse_cons c t

theorem splitNL_ne_nil (c : List Char) : splitNL c ≠ [] := by
  induction c with
  | nil => simp [splitNL]
  | cons x xs ih =>
    rw [splitNL]
    by_cases hx : x = '\n'
    · rw [if_pos hx]
      simp
    · rw [if_neg hx]
      cases h : splitNL xs with
      | nil => simp
      | cons a b => simp

theorem mem_splitNL_no_nl {c : List Char} : ∀ x ∈ splitNL c, '\n' ∉ x := by
  induction c with
  | nil =>
    intro x hx
    rw [splitNL] at hx
    rcases List.mem_singleton.mp hx with rfl
    simp
  | cons a rest ih =>
    intro x hx
    rw [splitNL] at hx
    by_cases ha : a = '\n'
    · rw [if_pos ha] at hx
      rcases List.mem_cons.mp hx with rfl | hx2
      · simp
      · exact ih x hx2
    · rw [if_neg ha] at hx
      cases hs : splitNL rest with
      | nil => exact absurd hs (splitNL_ne_nil rest)
      | cons h t =>
        rw [hs] at hx
        rcases List.mem_cons.mp hx with rfl | hx2
        · intro hm
          rcases List.mem_cons.mp hm with he | hm2
          · exact ha he.symm
          · exact ih h (hs ▸ List.mem_cons_self h t) hm2
        · exact ih x (hs ▸ List.mem_cons_of_mem h hx2)

theorem splitNL_single {a : List Char} (h : '\n' ∉ a) : splitNL a = [a] := by
  induction a with
  | nil => rfl
  | cons c rest ih =>
    have hc : c ≠ '\n' := fun hh => h (hh ▸ List.mem_cons_self c rest)
    have hr : '\n' ∉ rest := fun hm => h (List.mem_cons_of_mem c hm)
    rw [splitNL, if_neg hc, ih hr]

theorem splitNL_append {a : List Char} (r : List Char) (h : '\n' ∉ a) :
    splitNL (a ++ '\n' :: r) = a :: splitNL r := by
  induction a with
  | nil =>
    rw [List.nil_append, splitNL, if_pos rfl]
  | cons c rest ih =>
    have hc : c ≠ '\n' := fun hh => h (hh ▸ List.mem_cons_self c rest)
    have hr : '\n' ∉ rest := fun hm => h (List.mem_cons_of_mem c hm)
    rw [List.cons_append, splitNL, if_neg hc, ih hr]

theorem splitNL_joinNL {l : List (List Char)} (hne : l ≠ [])
    (h : ∀ x ∈ l, '\n' ∉ x) : splitNL (joinNL l) = l := by
  induction l with
  | nil => exact absurd rfl hne
  | cons a rest ih =>
    cases rest with
    | nil => exact splitNL_single (h a (List.mem_cons_self a []))
    | cons b rest2 =>
      rw [joinNL, splitNL_append _ (h a (List.mem_cons_self a _)),
        ih (by simp) fun x hx => h x (List.mem_cons_of_mem a hx)]

/-! Facts about deduplication and the sort relation. -/

theorem mem_dedupFirstAux {x : List Char} :
    ∀ {seen l : List (List Char)}, x ∈ dedupFirstAux seen l ↔ x ∈ l ∧ x ∉ seen := by
  intro seen l
  induction l generalizing seen with
  | nil => simp [dedupFirstAux]
  | cons a as ih =>
    rw [dedupFirstAux]
    by_cases ha : a ∈ seen
    · rw [if_pos ha, ih]
      constructor
      · rintro ⟨hx, hs⟩
        exact ⟨List.mem_cons_of_mem a hx, hs⟩
      · rintro ⟨hx, hs⟩
        rcases List.mem_cons.mp hx with rfl | hx2
        · exact absurd ha hs
        · exact ⟨hx2, hs⟩
    · rw [if_neg ha]
      constructor
      · intro hx
        rcases List.mem_cons.mp hx with rfl | hx2
        · exact ⟨List.mem_cons_self x as, ha⟩
        · obtain ⟨h1, h2⟩ := ih.mp hx2
          exact ⟨List.mem_cons_of_mem a h1, fun hs => h2 (List.mem_cons_of_mem a hs)⟩
      · rintro ⟨hx, hs⟩
        by_cases hxa : x = a
        · subst hxa
          exact List.mem_cons_self x _
        · rcases List.mem_cons.mp hx with rfl | hx2
          · exact absurd rfl hxa
          · refine List.mem_cons_of_mem a (ih.mpr ⟨hx2, ?_⟩)
            intro hmem
            rcases List.mem_cons.mp hmem with he | h2
            · exact hxa he
            · exact hs h2

theorem nodup_dedupFirstAux :
    ∀ {seen l : List (List Char)}, (dedupFirstAux seen l).Nodup := by
  intro seen l
  induction l generalizing seen with
  | nil => simp [dedupFirstAux]
  | cons a as ih =>
    rw [dedupFirstAux]
    by_cases ha : a ∈ seen
    · rw [if_pos ha]
      exact ih
    · rw [if_neg ha]
      refine List.nodup_cons.mpr ⟨?_, ih⟩
      intro hmem
      exact (mem_dedupFirstAux.mp hmem).2 (List.mem_cons_self a seen)

theorem dedupFirstAux_eq_self :
    ∀ {seen l : List (List Char)}, l.Nodup → (∀ x ∈ l, x ∉ seen) →
      dedupFirstAux seen l = l := by
  intro seen l
  induction l generalizing seen with
  | nil => intro _ _; rfl
  | cons a as ih =>
    intro hnd hs
    rw [dedupFirstAux, if_neg (hs a (List.mem_cons_self a as))]
    obtain ⟨hna, hnd2⟩ := List.nodup_cons.mp hnd
    rw [ih hnd2]
    intro x hx hmem
    rcases List.mem_cons.mp hmem with rfl | h2
    · exact hna hx
    · exact hs x (List.mem_cons_of_mem a hx) h2

theorem mem_dedupFirst {x : List Char} {l : List (List Char)} :
    x ∈ dedupFirst l ↔ x ∈ l := by
  rw [dedupFirst, mem_dedupFirstAux]
  simp

theorem nodup_dedupFirst {l : List (List Char)} : (dedupFirst l).Nodup :=
  nodup_dedupFirstAux

theorem dedupFirst_eq_self {l : List (List Char)} (h : l.Nodup) : dedupFirst l = l :=
  dedupFirstAux_eq_self h (by simp)

theorem lexLe_total : ∀ a b : List Char, lexLe a b = true ∨ lexLe b a = true
  | [], _ => Or.inl rfl
  | _ :: _, [] => Or.inr rfl
  | a :: as, b :: bs => by
    rcases lt_trichotomy a b with h | h | h
    · left
      simp [lexLe, h]
    · subst h
      rcases lexLe_total as bs with h2 | h2
      · left
        simp [lexLe, h2]
      · right
        simp [lexLe, h2]
    · right
      simp [lexLe, h]

theorem lexLe_trans :
    ∀ {a b c : List Char}, lexLe a b = true → lexLe b c = true → lexLe a c = true := by
  intro a
  induction a with
  | nil => intro b c _ _; rfl
  | cons x xs ih =>
    intro b c h1 h2
    cases b with
    | nil => simp [lexLe] at h1
    | cons y ys =>
      cases c with
      | nil => simp [lexLe] at h2
      | cons z zs =>
        simp only [lexLe, Bool.or_eq_true, Bool.and_eq_true, decide_eq_true_eq] at h1 h2 ⊢
        rcases h1 with h1 | ⟨rfl, h1⟩
        · rcases h2 with h2 | ⟨rfl, h2⟩
          · exact Or.inl (lt_trans h1 h2)
          · exact Or.inl h1
        · rcases h2 with h2 | ⟨rfl, h2⟩
          · exact Or.inl h2
          · exact Or.inr ⟨rfl, ih h1 h2⟩

instance : IsTotal (List Char) leKey :=
  ⟨fun a b => lexLe_total (lowerStr a) (lowerStr b)⟩

instance : IsTrans (List Char) leKey :=
  ⟨fun _ _ _ h1 h2 => lexLe_trans h1 h2⟩

/-! The executable matcher agrees with the declarative reading of the
pattern. -/

theorem domainTail_iff {x : List Char} :
    domainTail x = true ↔
      ∃ t, x = '.' :: t ∧ 2 ≤ t.length ∧ t.all isAsciiAlpha = true := by
  cases x with
  | nil =>
    simp [domainTail]
  | cons c t =>
    rw [domainTail]
    simp only [Bool.and_eq_true, decide_eq_true_eq]
    constructor
    · rintro ⟨⟨rfl, h2⟩, h3⟩
      exact ⟨t, rfl, h2, h3⟩
    · rintro ⟨t2, he, h2, h3⟩
      cases he
      exact ⟨⟨rfl, h2⟩, h3⟩

theorem domainMatch_iff {d : List Char} :
    domainMatch d = true ↔
      ∃ p t, d = p ++ '.' :: t ∧ p ≠ [] ∧ p.all isDomainChar = true ∧
        2 ≤ t.length ∧ t.all isAsciiAlpha = true := by
  constructor
  · intro h
    rw [domainMatch, List.any_eq_true] at h
    obtain ⟨j, hjr, hj⟩ := h
    rw [List.mem_range] at hjr
    simp only [Bool.and_eq_true, decide_eq_true_eq] at hj
    obtain ⟨⟨hj1, hjall⟩, hjt⟩ := hj
    rw [domainTail_iff] at hjt
    obtain ⟨t, hdrop, ht2, htall⟩ := hjt
    refine ⟨d.take j, t, ?_, ?_, hjall, ht2, htall⟩
    · conv_lhs => rw [← List.take_append_drop j d]
      rw [hdrop]
    · intro hnil
      rcases List.take_eq_nil_iff.mp hnil with h0 | h0
      · omega
      · rw [h0] at hjr
        simp at hjr
  · rintro ⟨p, t, rfl, hp, hpall, ht2, htall⟩
    rw [domainMatch, List.any_eq_true]
    refine ⟨p.length, ?_, ?_⟩
    · rw [List.mem_range, List.length_append, List.length_cons]
      omega
    · simp only [Bool.and_eq_true, decide_eq_true_eq]
      refine ⟨⟨?_, ?_⟩, ?_⟩
      · cases p with
        | nil => exact absurd rfl hp
        | cons _ _ => simp
      · rw [List.take_left]
        exact hpall
      · rw [List.drop_left, domainTail_iff]
        exact ⟨t, rfl, ht2, htall⟩

theorem coreMatch_iff {s : List Char} : coreMatch s = true ↔ MatchesPattern s := by
  constructor
  · intro h
    unfold coreMatch at h
    cases hd : s.dropWhile (fun c => decide (c ≠ '@')) with
    | nil =>
      rw [hd] at h
      simp at h
    | cons c d =>
      rw [hd] at h
      simp only [Bool.and_eq_true, decide_eq_true_eq] at h
      obtain ⟨⟨⟨hc, hl⟩, hall⟩, hdm⟩ := h
      subst hc
      rw [domainMatch_iff] at hdm
      obtain ⟨p, t, rfl, hp, hpall, ht2, htall⟩ := hdm
      refine ⟨s.takeWhile (fun c => decide (c ≠ '@')), p, t, ?_, hl, hall, hp, hpall,
        ht2, htall⟩
      conv_lhs => rw [← List.takeWhile_append_dropWhile
        (p := fun c => decide (c ≠ '@')) (l := s)]
      rw [hd]
  · rintro ⟨l, d, t, rfl, hl, hall, hd, hdall, ht2, htall⟩
    have h1 : ∀ c ∈ l, (fun c => decide (c ≠ '@')) c = true := by
      intro c hc
      simp only [decide_eq_true_eq]
      intro he
      subst he
      have := List.all_eq_true.mp hall _ hc
      simp [isLocalChar, isAsciiAlpha, isAsciiDigit] at this
    unfold coreMatch
    rw [takeWhile_append_all _ h1, dropWhile_append_all _ h1]
    have h2 : (fun c => decide (c ≠ '@')) '@' = false := by simp
    rw [List.takeWhile_cons, if_neg (by simp), List.dropWhile_cons, if_neg (by simp)]
    simp only [List.append_nil, Bool.and_eq_true, decide_eq_true_eq]
    refine ⟨⟨⟨trivial, hl⟩, hall⟩, ?_⟩
    rw [domainMatch_iff]
    exact ⟨d, t, rfl, hd, hdall, ht2, htall⟩

/-! Consequences of a full pattern match. -/

theorem coreMatch_chars {s : List Char} (h : coreMatch s = true) :
    ∀ c ∈ s, isPyWS c = false := by
  rw [coreMatch_iff] at h
  obtain ⟨l, d, t, rfl, _, hall, _, hdall, _, htall⟩ := h
  intro c hc
  rw [List.all_eq_true] at hall hdall htall
  rcases List.mem_append.mp hc with hc | hc
  · exact not_ws_of_localChar (hall c hc)
  · rcases List.mem_cons.mp hc with rfl | hc
    · decide
    · rcases List.mem_append.mp hc with hc | hc
      · exact not_ws_of_domainChar (hdall c hc)
      · rcases List.mem_cons.mp hc with rfl | hc
        · decide
        · exact not_ws_of_asciiAlpha (htall c hc)

theorem coreMatch_ne_nil {s : List Char} (h : coreMatch s = true) : s ≠ [] := by
  intro he
  subst he
  exact absurd h (by decide)

theorem coreMatch_no_nl {s : List Char} (h : coreMatch s = true) : '\n' ∉ s := by
  intro hm
  have := coreMatch_chars h '\n' hm
  simp [isPyWS] at this

theorem validate_of_coreMatch {s : List Char} (h : coreMatch s = true) :
    validate_email s = true := by
  rw [validate_email, h, Bool.true_or]

theorem coreMatch_of_validate {s : List Char} (h : validate_email s = true)
    (hnl : s.getLast? ≠ some '\n') : coreMatch s = true := by
  rw [validate_email, Bool.or_eq_true] at h
  rcases h with h | h
  · exact h
  · exfalso
    cases hg : s.getLast? with
    | none =>
      rw [hg] at h
      simp at h
    | some c =>
      rw [hg] at h
      simp only [Bool.and_eq_true, decide_eq_true_eq] at h
      exact hnl (h.1 ▸ hg)

theorem get_recipients_coreMatch (fs : FileState) :
    ∀ x ∈ get_recipients fs, coreMatch x = true := by
  intro x hx
  cases fs with
  | absent => simp [get_recipients] at hx
  | unreadable => simp [get_recipients] at hx
  | present c =>
    unfold get_recipients at hx
    rw [List.mem_filter] at hx
    obtain ⟨hx1, hval⟩ := hx
    rw [List.mem_filter] at hx1
    obtain ⟨hx2, _⟩ := hx1
    rw [List.mem_map] at hx2
    obtain ⟨y, hy, rfl⟩ := hx2
    have hnl : '\n' ∉ pythonStrip y :=
      fun hm => mem_splitNL_no_nl y hy (mem_pythonStrip hm)
    apply coreMatch_of_validate hval
    intro hg
    exact hnl (List.mem_of_getLast?_eq_some hg)

/-! Reloading a freshly saved file. -/

theorem save_list_coreMatch {l : List (List Char)}
    (h : ∀ x ∈ l, coreMatch x = true) :
    ∀ x ∈ save_list l, coreMatch x = true := by
  intro x hx
  rw [save_list, List.mem_insertionSort, mem_dedupFirst] at hx
  exact h x hx

theorem load_of_save {l : List (List Char)} (h : ∀ x ∈ l, coreMatch x = true) :
    get_recipients (.present (save_content l)) = save_list l := by
  have hall := save_list_coreMatch h
  rw [save_content]
  by_cases hsl : save_list l = []
  · rw [hsl]
    decide
  · have hnl : ∀ x ∈ save_list l, '\n' ∉ x :=
      fun x hx => coreMatch_no_nl (hall x hx)
    simp only [get_recipients]
    rw [splitNL_joinNL hsl hnl]
    have hstrip : (save_list l).map pythonStrip = save_list l := by
      conv_rhs => rw [← List.map_id (save_list l)]
      apply List.map_congr_left
      intro x hx
      exact pythonStrip_eq_self (coreMatch_chars (hall x hx))
    have hf1 : (save_list l).filter (fun s => !s.isEmpty) = save_list l := by
      rw [List.filter_eq_self]
      intro x hx
      have hne := coreMatch_ne_nil (hall x hx)
      simp [List.isEmpty_iff, hne]
    have hf2 : (save_list l).filter validate_email = save_list l := by
      rw [List.filter_eq_self]
      intro x hx
      exact validate_of_coreMatch (hall x hx)
    rw [hstrip, hf1, hf2]

theorem nodup_save_list (l : List (List Char)) : (save_list l).Nodup :=
  ((List.perm_insertionSort leKey (dedupFirst l)).nodup_iff).mpr nodup_dedupFirst

theorem sorted_save_list (l : List (List Char)) : (save_list l).Sorted leKey :=
  List.sorted_insertionSort leKey (dedupFirst l)

theorem save_list_idem (l : List (List Char)) : save_list (save_list l) = save_list l := by
  show (dedupFirst (save_list l)).insertionSort leKey = save_list l
  rw [dedupFirst_eq_self (nodup_save_list l)]
  exact (sorted_save_list l).insertionSort_eq

/-- C1, counterexample: `save_recipients` deduplicates only under exact string
equality, so the two case variants of one address both survive and are both
written to the file, refuting the claim that the persisted list never holds
two entries equal under case-insensitive comparison. -/
theorem save_keeps_case_variants :
    save_list [("A@x.com".data), ("a@x.com".data)] =
      [("A@x.com".data), ("a@x.com".data)] ∧
    lowerStr ("A@x.com".data) = lowerStr ("a@x.com".data) ∧
    ("A@x.com".data) ≠ ("a@x.com".data) :=
  ⟨by decide, by decide, by decide⟩

/-- C1, amended: `save_recipients` deduplicates under exact (case sensitive)
string equality preserving the first occurrence, sorts the survivors
case-insensitively (stably), and writes them one per line; the persisted list
never contains two identical entries, though it may contain entries that
differ only by letter case. -/
theorem save_dedup_exact_sorted (l : List (List Char)) :
    (save_list l).Nodup ∧ (save_list l).Sorted leKey ∧
      (∀ x, x ∈ save_list l ↔ x ∈ l) ∧ save_content l = joinNL (save_list l) :=
  ⟨nodup_save_list l, sorted_save_list l,
    fun x => by rw [save_list, List.mem_insertionSort, mem_dedupFirst], rfl⟩

/-- C2, counterexample: `re.match` lets `$` match just before a trailing
newline, so `validate_email` accepts a string that is not a full match of
the pattern. -/
theorem validate_accepts_trailing_newline :
    validate_email ("a@b.co\n".data) = true ∧ ¬ MatchesPattern ("a@b.co\n".data) := by
  refine ⟨by decide, ?_⟩
  rw [← coreMatch_iff]
  decide

/-- C2, amended: `validate_email s` is true iff `s` is a full match of the
pattern, or `s` is a full match followed by exactly one trailing newline
(the Python `re.match` reading of `$`). -/
theorem validate_email_iff (s : List Char) :
    validate_email s = true ↔
      MatchesPattern s ∨ ∃ s2, s = s2 ++ ['\n'] ∧ MatchesPattern s2 := by
  constructor
  · intro h
    rw [validate_email, Bool.or_eq_true] at h
    rcases h with h | h
    · exact Or.inl (coreMatch_iff.mp h)
    · right
      cases hg : s.getLast? with
      | none =>
        rw [hg] at h
        simp at h
      | some c =>
        rw [hg] at h
        simp only [Bool.and_eq_true, decide_eq_true_eq] at h
        obtain ⟨rfl, h2⟩ := h
        have hne : s ≠ [] := by
          intro he
          rw [he] at hg
          simp at hg
        have hlast : s.getLast hne = '\n' := by
          have h3 := List.getLast?_eq_getLast s hne
          rw [hg] at h3
          exact (Option.some.inj h3).symm
        refine ⟨s.dropLast, ?_, coreMatch_iff.mp h2⟩
        conv_lhs => rw [← List.dropLast_append_getLast hne]
        rw [hlast]
  · intro h
    rw [validate_email, Bool.or_eq_true]
    rcases h with h | ⟨s2, rfl, hm⟩
    · exact Or.inl (coreMatch_iff.mpr h)
    · right
      rw [List.getLast?_concat]
      simp only [Bool.and_eq_true, decide_eq_true_eq]
      exact ⟨trivial, by rw [List.dropLast_concat]; exact coreMatch_iff.mpr hm⟩

/-- C3: saving a freshly loaded list rewrites byte-identical file contents,
for every starting file state. -/
theorem save_load_idempotent (fs : FileState) :
    save_content (get_recipients (.present (save_content (get_recipients fs)))) =
      save_content (get_recipients fs) := by
  rw [load_of_save (get_recipients_coreMatch fs)]
  show joinNL (save_list (save_list (get_recipients fs))) = _
  rw [save_list_idem]
  rfl

theorem filter_filter_eq_filterMap (lines : List (List Char)) :
    ((lines.map pythonStrip).filter (fun s => !s.isEmpty)).filter validate_email
      = lines.filterMap loadSpecLine := by
  induction lines with
  | nil => rfl
  | cons a rest ih =>
    rw [List.map_cons, List.filterMap_cons]
    by_cases h1 : (pythonStrip a).isEmpty
    · rw [List.filter_cons_of_neg (by simp [h1])]
      rw [show loadSpecLine a = none by rw [loadSpecLine]; rw [if_pos h1]]
      exact ih
    · rw [List.filter_cons_of_pos (by simp [Bool.eq_false_iff.mpr h1])]
      by_cases h2 : validate_email (pythonStrip a) = true
      · rw [List.filter_cons_of_pos h2]
        rw [show loadSpecLine a = some (pythonStrip a) by
          rw [loadSpecLine]
          rw [if_neg h1, if_pos h2]]
        rw [ih]
      · rw [List.filter_cons_of_neg h2]
        rw [show loadSpecLine a = none by
          rw [loadSpecLine]
          rw [if_neg h1, if_neg h2]]
        exact ih

/-- C4: `get_recipients` returns the empty list when the file is absent or
unreadable, and otherwise returns exactly the spec's per-line pipeline:
trim each line, drop blanks, silently discard lines failing validation. -/
theorem get_recipients_eq_loadSpec (fs : FileState) : get_recipients fs = loadSpec fs := by
  cases fs with
  | absent => rfl
  | unreadable => rfl
  | present c =>
    show ((((splitNL c).map pythonStrip).filter fun s => !s.isEmpty).filter validate_email)
      = (splitNL c).filterMap loadSpecLine
    exact filter_filter_eq_filterMap (splitNL c)

/-- C5: the subject is the fixed prefix plus the first 50 characters of the
message, with an ellipsis marker appended exactly when the message exceeds
50 characters, and the untruncated message with no ellipsis otherwise. -/
theorem subject_truncation (sender m : List Char) (rs : List (List Char)) :
    (50 < m.length →
      (mkEmail sender m rs).subject =
        ("System Alert: ".data) ++ m.take 50 ++ ("...".data)) ∧
    (m.length ≤ 50 → (mkEmail sender m rs).subject = ("System Alert: ".data) ++ m) := by
  constructor
  · intro h
    show subjectFor m = _
    rw [subjectFor, if_pos h]
  · intro h
    show subjectFor m = _
    rw [subjectFor, if_neg (by omega : ¬ 50 < m.length), List.take_of_length_le h,
      List.append_nil]

/-- C5, witness: a 60-character message is truncated at 50 characters with an
ellipsis; a 30-character message appears whole with no ellipsis. -/
theorem subject_truncation_witness :
    (50 < ("012345678901234567890123456789012345678901234567890123456789".data).length ∧
      (mkEmail [] ("012345678901234567890123456789012345678901234567890123456789".data)
          []).subject =
        ("System Alert: ".data) ++
          ("012345678901234567890123456789012345678901234567890123456789".data).take 50 ++
          ("...".data)) ∧
    (("012345678901234567890123456789".data).length ≤ 50 ∧
      (mkEmail [] ("012345678901234567890123456789".data) []).subject =
        ("System Alert: ".data) ++ ("012345678901234567890123456789".data)) :=
  ⟨⟨by decide, (subject_truncation [] _ []).1 (by decide)⟩,
   ⟨by decide, (subject_truncation [] _ []).2 (by decide)⟩⟩

/-- C6: with no recipients on record, dispatch fails with the no-recipients
error before constructing a message, and no SMTP session is opened. -/
theorem send_no_recipients (sender : List Char) (fs : FileState) (m : List Char)
    (h : get_recipients fs = []) :
    send_email_to_all sender fs m =
      { error := some .noRecipients, email := none, sessionOpened := false } := by
  simp [send_email_to_all, h]

/-- C6, witness: an absent recipient file. -/
theorem send_no_recipients_witness :
    get_recipients .absent = [] ∧
    send_email_to_all [] .absent (['h']) =
      { error := some .noRecipients, email := none, sessionOpened := false } :=
  ⟨rfl, send_no_recipients [] .absent (['h']) rfl⟩

/-- C7: a message that is empty after trimming, or longer than 5000
characters after trimming, stops the handler at a validation outcome and no
SMTP session is opened. -/
theorem trigger_validation (sender raw : List Char) (fs : FileState)
    (h : pythonStrip raw = [] ∨ 5000 < (pythonStrip raw).length) :
    (trigger_email sender raw fs = .emptyMsg ∨ trigger_email sender raw fs = .tooLong) ∧
      opensSession (trigger_email sender raw fs) = false := by
  by_cases he : (pythonStrip raw).isEmpty
  · have ho : trigger_email sender raw fs = .emptyMsg := by
      simp [trigger_email, he]
    rw [ho]
    exact ⟨Or.inl rfl, rfl⟩
  · have hlen : 5000 < (pythonStrip raw).length := by
      rcases h with h | h
      · exact absurd (by rw [h]; rfl : (pythonStrip raw).isEmpty = true) he
      · exact h
    have ho : trigger_email sender raw fs = .tooLong := by
      simp [trigger_email, he, hlen]
    rw [ho]
    exact ⟨Or.inr rfl, rfl⟩

/-- C7, witness: a whitespace-only message is rejected with no session. -/
theorem trigger_validation_witness :
    (pythonStrip ([' ']) = [] ∨ 5000 < (pythonStrip ([' '])).length) ∧
    ((trigger_email [] ([' ']) .absent = .emptyMsg ∨
        trigger_email [] ([' ']) .absent = .tooLong) ∧
      opensSession (trigger_email [] ([' ']) .absent) = false) :=
  ⟨Or.inl (by decide), trigger_validation [] ([' ']) .absent (Or.inl (by decide))⟩

/-! Facts about the add and remove request paths. -/

theorem lowerStr_idem (s : List Char) : lowerStr (lowerStr s) = lowerStr s := by
  rw [lowerStr, lowerStr, List.map_map]
  apply List.map_congr_left
  intro a _
  exact toLower_toLower a

theorem not_isEmpty_of_ne_nil {e : List Char} (h : e ≠ []) : (!e.isEmpty) = true := by
  rw [show e.isEmpty = false by rw [← Bool.not_eq_true, List.isEmpty_iff]; exact h]
  rfl

theorem addStepFun_nil (cur : List (List Char)) : addStepFun [] cur = ([], cur, false) := rfl

theorem removeStepFun_nil (cur : List (List Char)) :
    removeStepFun [] cur = ([], cur, false) := rfl

theorem addStepFun_invalid {e : List Char} {cur : List (List Char)} (hne : e ≠ [])
    (hv : validate_email e = false) :
    addStepFun e cur = ([Flash.invalidFormat e], cur, false) := by
  rw [addStepFun, if_pos (not_isEmpty_of_ne_nil hne), if_pos (by rw [hv]; rfl)]

theorem addStepFun_present {e : List Char} {cur : List (List Char)} (hne : e ≠ [])
    (hv : validate_email e = true) (hm : lowerStr e ∈ cur.map lowerStr) :
    addStepFun e cur = ([Flash.alreadyPresent e], cur, false) := by
  rw [addStepFun, if_pos (not_isEmpty_of_ne_nil hne), if_neg (by rw [hv]; simp),
    if_pos hm]

theorem addStepFun_added {e : List Char} {cur : List (List Char)} (hne : e ≠ [])
    (hv : validate_email e = true) (hm : lowerStr e ∉ cur.map lowerStr) :
    addStepFun e cur = ([Flash.added e], cur ++ [e], true) := by
  rw [addStepFun, if_pos (not_isEmpty_of_ne_nil hne), if_neg (by rw [hv]; simp),
    if_neg hm]

theorem removeStepFun_found {r : List Char} {cur : List (List Char)} (hne : r ≠ [])
    (hlt : (cur.filter fun e => decide (lowerStr e ≠ r)).length < cur.length) :
    removeStepFun r cur =
      ([Flash.removed r], cur.filter fun e => decide (lowerStr e ≠ r), true) := by
  rw [removeStepFun, if_pos (not_isEmpty_of_ne_nil hne), if_pos hlt]

theorem removeStepFun_notfound {r : List Char} {cur : List (List Char)} (hne : r ≠ [])
    (hge : ¬ (cur.filter fun e => decide (lowerStr e ≠ r)).length < cur.length) :
    removeStepFun r cur =
      ([Flash.notFound r], cur.filter fun e => decide (lowerStr e ≠ r), false) := by
  rw [removeStepFun, if_pos (not_isEmpty_of_ne_nil hne), if_neg hge]

theorem update_clients_run (newRaw removeRaw : List Char) (fs : FileState) :
    update_clients newRaw removeRaw fs =
      (if (addStepFun (lowerStr (pythonStrip newRaw)) (get_recipients fs)).2.2
          || (removeStepFun (lowerStr (pythonStrip removeRaw))
              (addStepFun (lowerStr (pythonStrip newRaw)) (get_recipients fs)).2.1).2.2 then
        { flashes := (addStepFun (lowerStr (pythonStrip newRaw)) (get_recipients fs)).1
            ++ (removeStepFun (lowerStr (pythonStrip removeRaw))
                (addStepFun (lowerStr (pythonStrip newRaw)) (get_recipients fs)).2.1).1
          newFile := .present (save_content
            (removeStepFun (lowerStr (pythonStrip removeRaw))
              (addStepFun (lowerStr (pythonStrip newRaw)) (get_recipients fs)).2.1).2.1)
          changed := true
          saved := true }
      else
        { flashes := (addStepFun (lowerStr (pythonStrip newRaw)) (get_recipients fs)).1
            ++ (removeStepFun (lowerStr (pythonStrip removeRaw))
                (addStepFun (lowerStr (pythonStrip newRaw)) (get_recipients fs)).2.1).1
          newFile := fs
          changed := false
          saved := false }) := rfl

/-- C8: a remove request filters the list by case-insensitive match; it
signals "changed" iff the resulting count is strictly smaller, and when the
address is absent (case-insensitively) it flashes "not found", performs no
save, and leaves the backing file unchanged.  Stated for a request whose add
field is empty. -/
theorem remove_changed_iff_and_notfound (removeRaw : List Char) (fs : FileState)
    (h : lowerStr (pythonStrip removeRaw) ≠ []) :
    ((update_clients [] removeRaw fs).changed = true ↔
      ((get_recipients fs).filter
          (fun e => decide (lowerStr e ≠ lowerStr (pythonStrip removeRaw)))).length
        < (get_recipients fs).length) ∧
    ((∀ e ∈ get_recipients fs, lowerStr e ≠ lowerStr (pythonStrip removeRaw)) →
      (update_clients [] removeRaw fs).newFile = fs ∧
      (update_clients [] removeRaw fs).saved = false ∧
      (update_clients [] removeRaw fs).flashes
        = [Flash.notFound (lowerStr (pythonStrip removeRaw))]) := by
  have hrun := update_clients_run [] removeRaw fs
  rw [show lowerStr (pythonStrip ([] : List Char)) = [] from rfl, addStepFun_nil] at hrun
  simp only [] at hrun
  by_cases hlt : ((get_recipients fs).filter
      (fun e => decide (lowerStr e ≠ lowerStr (pythonStrip removeRaw)))).length
        < (get_recipients fs).length
  · rw [removeStepFun_found h hlt] at hrun
    simp only [Bool.false_or, List.nil_append] at hrun
    rw [if_pos trivial] at hrun
    constructor
    · rw [hrun]
      exact iff_of_true rfl hlt
    · intro hall
      exfalso
      have hfe : (get_recipients fs).filter
          (fun e => decide (lowerStr e ≠ lowerStr (pythonStrip removeRaw)))
            = get_recipients fs := by
        rw [List.filter_eq_self]
        intro a ha
        exact decide_eq_true (hall a ha)
      rw [hfe] at hlt
      omega
  · rw [removeStepFun_notfound h hlt] at hrun
    simp only [Bool.false_or, List.nil_append] at hrun
    rw [if_neg (by simp)] at hrun
    constructor
    · rw [hrun]
      exact iff_of_false (by simp) hlt
    · intro hall
      rw [hrun]
      exact ⟨rfl, rfl, rfl⟩

/-- C8, witness: removing from an empty store reports "not found" and leaves
the absent file untouched. -/
theorem remove_changed_iff_and_notfound_witness :
    lowerStr (pythonStrip ("x@y.com".data)) ≠ [] ∧
    (((update_clients [] ("x@y.com".data) .absent).changed = true ↔
      ((get_recipients .absent).filter
          (fun e => decide (lowerStr e ≠ lowerStr (pythonStrip ("x@y.com".data))))).length
        < (get_recipients .absent).length) ∧
    ((∀ e ∈ get_recipients .absent,
        lowerStr e ≠ lowerStr (pythonStrip ("x@y.com".data))) →
      (update_clients [] ("x@y.com".data) .absent).newFile = .absent ∧
      (update_clients [] ("x@y.com".data) .absent).saved = false ∧
      (update_clients [] ("x@y.com".data) .absent).flashes
        = [Flash.notFound (lowerStr (pythonStrip ("x@y.com".data)))])) :=
  ⟨by decide, remove_changed_iff_and_notfound ("x@y.com".data) .absent (by decide)⟩

theorem coreMatch_strip_lower {raw : List Char}
    (hne : lowerStr (pythonStrip raw) ≠ [])
    (hv : validate_email (lowerStr (pythonStrip raw)) = true) :
    coreMatch (lowerStr (pythonStrip raw)) = true := by
  apply coreMatch_of_validate hv
  intro hg
  rcases pythonStrip_getLast_not_ws raw with h0 | ⟨c, t, heq, hws⟩
  · rw [h0] at hne
    exact hne rfl
  · rw [heq] at hg
    simp only [lowerStr, List.map_append, List.map_cons, List.map_nil,
      List.getLast?_concat] at hg
    have hc : Char.toLower c = '\n' := Option.some.inj hg
    have hws2 : isPyWS (Char.toLower c) = false := by
      rw [isPyWS_toLower]
      exact hws
    rw [hc] at hws2
    exact absurd hws2 (by decide)

theorem mem_save_list {x : List Char} {l : List (List Char)} :
    x ∈ save_list l ↔ x ∈ l := by
  rw [save_list, List.mem_insertionSort, mem_dedupFirst]

/-- C9: an add request performs no save and leaves the file unchanged when
the (trimmed, lowercased) address fails validation or is already present
case-insensitively; in particular after a successful add, repeating the same
add leaves the stored file unchanged and flashes "already in the list".
Stated for a request whose remove field is empty. -/
theorem add_rejects_and_second_add_reports_present (newRaw : List Char)
    (fs : FileState) (h : lowerStr (pythonStrip newRaw) ≠ []) :
    ((validate_email (lowerStr (pythonStrip newRaw)) = false ∨
        lowerStr (pythonStrip newRaw) ∈ (get_recipients fs).map lowerStr) →
      (update_clients newRaw [] fs).newFile = fs ∧
      (update_clients newRaw [] fs).saved = false) ∧
    (validate_email (lowerStr (pythonStrip newRaw)) = true →
      lowerStr (pythonStrip newRaw) ∉ (get_recipients fs).map lowerStr →
      ((update_clients newRaw [] ((update_clients newRaw [] fs).newFile)).newFile =
        (update_clients newRaw [] fs).newFile ∧
      (update_clients newRaw [] ((update_clients newRaw [] fs).newFile)).saved
        = false ∧
      (update_clients newRaw [] ((update_clients newRaw [] fs).newFile)).flashes =
        [Flash.alreadyPresent (lowerStr (pythonStrip newRaw))])) := by
  have hidem : lowerStr (lowerStr (pythonStrip newRaw)) = lowerStr (pythonStrip newRaw) :=
    lowerStr_idem _
  constructor
  · intro hrej
    have hrun := update_clients_run newRaw [] fs
    rw [show lowerStr (pythonStrip ([] : List Char)) = [] from rfl] at hrun
    rcases hrej with hv | hm
    · rw [addStepFun_invalid h hv, removeStepFun_nil] at hrun
      simp only [Bool.false_or, List.append_nil] at hrun
      rw [if_neg (by simp)] at hrun
      rw [hrun]
      exact ⟨rfl, rfl⟩
    · by_cases hv : validate_email (lowerStr (pythonStrip newRaw)) = true
      · have hm2 : lowerStr (lowerStr (pythonStrip newRaw))
            ∈ (get_recipients fs).map lowerStr := by
          rw [hidem]
          exact hm
        rw [addStepFun_present h hv hm2, removeStepFun_nil] at hrun
        simp only [Bool.false_or, List.append_nil] at hrun
        rw [if_neg (by simp)] at hrun
        rw [hrun]
        exact ⟨rfl, rfl⟩
      · rw [addStepFun_invalid h (Bool.eq_false_iff.mpr hv), removeStepFun_nil] at hrun
        simp only [Bool.false_or, List.append_nil] at hrun
        rw [if_neg (by simp)] at hrun
        rw [hrun]
        exact ⟨rfl, rfl⟩
  · intro hv hm
    have hm2 : lowerStr (lowerStr (pythonStrip newRaw))
        ∉ (get_recipients fs).map lowerStr := by
      rw [hidem]
      exact hm
    have hrun1 := update_clients_run newRaw [] fs
    rw [show lowerStr (pythonStrip ([] : List Char)) = [] from rfl,
      addStepFun_added h hv hm2, removeStepFun_nil] at hrun1
    simp only [Bool.or_false, List.append_nil] at hrun1
    rw [if_pos trivial] at hrun1
    rw [hrun1]
    have hload : get_recipients (.present (save_content
          (get_recipients fs ++ [lowerStr (pythonStrip newRaw)])))
        = save_list (get_recipients fs ++ [lowerStr (pythonStrip newRaw)]) := by
      apply load_of_save
      intro x hx
      rcases List.mem_append.mp hx with hx | hx
      · exact get_recipients_coreMatch fs x hx
      · rcases List.mem_singleton.mp hx with rfl
        exact coreMatch_strip_lower h hv
    have hmem2 : lowerStr (lowerStr (pythonStrip newRaw))
        ∈ (save_list (get_recipients fs ++ [lowerStr (pythonStrip newRaw)])).map
            lowerStr := by
      apply List.mem_map_of_mem
      rw [mem_save_list]
      exact List.mem_append.mpr (Or.inr (List.mem_singleton.mpr rfl))
    have hrun2 := update_clients_run newRaw []
      (.present (save_content (get_recipients fs ++ [lowerStr (pythonStrip newRaw)])))
    rw [show lowerStr (pythonStrip ([] : List Char)) = [] from rfl, hload,
      addStepFun_present h hv hmem2, removeStepFun_nil] at hrun2
    simp only [Bool.false_or, List.append_nil] at hrun2
    rw [if_neg (by simp)] at hrun2
    rw [hrun2]
    exact ⟨rfl, rfl, rfl⟩

/-- C9, witness: adding the same address twice from an empty store; the
second add flashes "already in the list". -/
theorem add_rejects_and_second_add_witness :
    lowerStr (pythonStrip ("User@Example.com".data)) ≠ [] ∧
    validate_email (lowerStr (pythonStrip ("User@Example.com".data))) = true ∧
    lowerStr (pythonStrip ("User@Example.com".data))
      ∉ (get_recipients .absent).map lowerStr ∧
    (update_clients ("User@Example.com".data) []
        ((update_clients ("User@Example.com".data) [] .absent).newFile)).flashes =
      [Flash.alreadyPresent (lowerStr (pythonStrip ("User@Example.com".data)))] :=
  ⟨by decide, by decide, by decide,
    ((add_rejects_and_second_add_reports_present ("User@Example.com".data) .absent
      (by decide)).2 (by decide) (by decide)).2.2⟩

/-- C10: a successful add stores exactly the trimmed, lowercased form of the
submitted address, and that stored entry is entirely lowercase (it is a fixed
point of lowercasing). -/
theorem add_stores_lowercased (newRaw : List Char) (fs : FileState)
    (h : lowerStr (pythonStrip newRaw) ≠ [])
    (hv : validate_email (lowerStr (pythonStrip newRaw)) = true)
    (hm : lowerStr (pythonStrip newRaw) ∉ (get_recipients fs).map lowerStr) :
    (update_clients newRaw [] fs).newFile =
      .present (save_content (get_recipients fs ++ [lowerStr (pythonStrip newRaw)])) ∧
    lowerStr (lowerStr (pythonStrip newRaw)) = lowerStr (pythonStrip newRaw) := by
  have hm2 : lowerStr (lowerStr (pythonStrip newRaw))
      ∉ (get_recipients fs).map lowerStr := by
    rw [lowerStr_idem]
    exact hm
  have hrun := update_clients_run newRaw [] fs
  rw [show lowerStr (pythonStrip ([] : List Char)) = [] from rfl,
    addStepFun_added h hv hm2, removeStepFun_nil] at hrun
  simp only [Bool.or_false, List.append_nil] at hrun
  rw [if_pos trivial] at hrun
  rw [hrun]
  exact ⟨rfl, lowerStr_idem _⟩

/-- C10, witness: a mixed-case submission is stored in lowercase. -/
theorem add_stores_lowercased_witness :
    lowerStr (pythonStrip ("MiXeD@CaSe.Com".data)) ≠ [] ∧
    validate_email (lowerStr (pythonStrip ("MiXeD@CaSe.Com".data))) = true ∧
    lowerStr (pythonStrip ("MiXeD@CaSe.Com".data))
      ∉ (get_recipients .absent).map lowerStr ∧
    ((update_clients ("MiXeD@CaSe.Com".data) [] .absent).newFile =
      .present (save_content (get_recipients .absent ++
        [lowerStr (pythonStrip ("MiXeD@CaSe.Com".data))])) ∧
    lowerStr (lowerStr (pythonStrip ("MiXeD@CaSe.Com".data))) =
      lowerStr (pythonStrip ("MiXeD@CaSe.Com".data))) :=
  ⟨by decide, by decide, by decide,
    add_stores_lowercased ("MiXeD@CaSe.Com".data) .absent (by decide) (by decide)
      (by decide)⟩
